import Mathlib

/-!
Verification of the pdf_merger tool (src/pdf_merger.py) against its design
specification.  The script is a linear pipeline: filter directory entries by a
case-insensitive regex, sort the matches with a natural-order key, concatenate
the pages of the readable files, and write the result.  Each Python function is
embedded below as an executable Lean definition; strings are lists of
characters, and Python runtime errors (list comparison between an int and a
str, failed file reads, failed writes) are made explicit with Option.
-/

namespace PdfMerger

/-- Filenames and string values are modelled as lists of characters. -/
abbrev Str := List Char

/-- Python str.isdigit restricted to ASCII, applied to one run of characters:
true when the run is nonempty and all characters are decimal digits. -/
def pyIsDigit (s : Str) : Bool := !s.isEmpty && s.all Char.isDigit

/-- Python str.lower (ASCII case folding, which covers the filenames here). -/
def lowerStr (s : Str) : Str := s.map Char.toLower

/-- int(part) for a run of decimal digits. -/
def digitsVal (s : Str) : Nat := s.foldl (fun a c => 10 * a + (c.toNat - 48)) 0

/-- re.split with a captured group of digits, as used in natural_sort_key:
the result alternates (possibly empty) non-digit runs at even positions with
maximal nonempty digit runs at odd positions, and has odd length. -/
def splitDigits : Str → List Str
  | [] => [[]]
  | c :: cs =>
    match splitDigits cs with
    | [] => [[]]
    | t :: rest =>
      if c.isDigit then
        match t, rest with
        | [], d :: rs => [] :: (c :: d) :: rs
        | _, _ => [] :: [c] :: t :: rest
      else
        (c :: t) :: rest

/-- One component of a natural sort key: Python turns a digit run into an int
and any other run into a lowercased str, so a key is a heterogeneous list. -/
inductive Part where
  | str : Str → Part
  | num : Nat → Part
deriving DecidableEq

/-- The inner convert function of natural_sort_key. -/
def convert (s : Str) : Part :=
  if pyIsDigit s then .num (digitsVal s) else .str (lowerStr s)

/-- natural_sort_key: split on digit runs and convert each piece. -/
def natural_sort_key (s : Str) : List Part := (splitDigits s).map convert

/-- Three-way comparison on Nat. -/
def cmpNat (a b : Nat) : Ordering :=
  if a < b then .lt else if b < a then .gt else .eq

/-- Python compares characters by code point. -/
def cmpChar (a b : Char) : Ordering := cmpNat a.toNat b.toNat

/-- Python lexicographic comparison of two str values. -/
def cmpStr : Str → Str → Ordering
  | [], [] => .eq
  | [], _ :: _ => .lt
  | _ :: _, [] => .gt
  | a :: as, b :: bs =>
    match cmpChar a b with
    | .eq => cmpStr as bs
    | o => o

/-- Comparing two key components: int with int and str with str succeed,
while int with str raises TypeError in Python, modelled as none. -/
def cmpPart : Part → Part → Option Ordering
  | .str a, .str b => some (cmpStr a b)
  | .num a, .num b => some (cmpNat a b)
  | _, _ => none

/-- Python comparison of two key lists: find the first component pair that is
not equal and compare it; a shorter list that is a leading segment of the
other compares as smaller; none propagates a TypeError. -/
def cmpKey : List Part → List Part → Option Ordering
  | [], [] => some .eq
  | [], _ :: _ => some .lt
  | _ :: _, [] => some .gt
  | a :: as, b :: bs =>
    match cmpPart a b with
    | some .eq => cmpKey as bs
    | r => r

/-- The ordering used by list.sort with key natural_sort_key: a file comes no
later than another when its key does not compare greater. -/
def keyLe (a b : Str) : Bool :=
  match cmpKey (natural_sort_key a) (natural_sort_key b) with
  | some .gt => false
  | _ => true

/-- str.rfind: index of the last occurrence of a character, none if absent. -/
def rfindIdx (c : Char) : Str → Option Nat
  | [] => none
  | a :: as =>
    match rfindIdx c as with
    | some i => some (i + 1)
    | none => if a == c then some 0 else none

/-- pathlib suffix of a filename: the segment from the last dot, provided that
dot is neither the first nor the last character; otherwise empty. -/
def pathSuffix (name : Str) : Str :=
  match rfindIdx '.' name with
  | none => []
  | some i => if 0 < i ∧ i < name.length - 1 then name.drop i else []

/-- pathlib with_suffix on a filename: append the extension when the name has
no suffix, otherwise replace the old suffix with the extension. -/
def withSuffixName (name ext : Str) : Str :=
  let old := pathSuffix name
  if old.isEmpty then name ++ ext
  else name.take (name.length - old.length) ++ ext

/-- A pathlib path: whether it is absolute, and its components in order; the
last component is the filename. -/
structure PyPath where
  isAbs : Bool
  parts : List Str
deriving DecidableEq

/-- The final component of a path. -/
def PyPath.name (p : PyPath) : Str := p.parts.getLastD []

/-- with_suffix lifted to a path: only the final component changes. -/
def PyPath.withSuffix (p : PyPath) (ext : Str) : PyPath :=
  ⟨p.isAbs, p.parts.dropLast ++ [withSuffixName p.name ext]⟩

/-- The pathlib / operator for the one use in main: joining a directory with a
relative path appends the components. -/
def joinPath (d p : PyPath) : PyPath :=
  if p.isAbs then p else ⟨d.isAbs, d.parts ++ p.parts⟩

/-- The characters of the literal ".pdf". -/
def pdfExt : Str := ['.', 'p', 'd', 'f']

/-- Lines 170 to 176 of main: give the output path a .pdf suffix when its
suffix does not lower to .pdf, then root it at the search directory when it is
not absolute. -/
def resolveOutput (directory output_path : PyPath) : PyPath :=
  let q := if lowerStr (pathSuffix output_path.name) ≠ pdfExt
    then output_path.withSuffix pdfExt else output_path
  if !q.isAbs then joinPath directory q else q

/-- Abstract syntax of regular expressions; matching is case-insensitive
throughout, modelling the re.IGNORECASE flag the script always passes. -/
inductive Regex where
  | emp
  | eps
  | chr (c : Char)
  | dot
  | alt (r s : Regex)
  | cat (r s : Regex)
  | star (r : Regex)
deriving DecidableEq

/-- Does the regex accept the empty string? -/
def nullable : Regex → Bool
  | .emp => false
  | .eps => true
  | .chr _ => false
  | .dot => false
  | .alt r s => nullable r || nullable s
  | .cat r s => nullable r && nullable s
  | .star _ => true

/-- Brzozowski derivative; a literal matches up to case, and dot matches any
character except a newline. -/
def deriv (r : Regex) (c : Char) : Regex :=
  match r with
  | .emp => .emp
  | .eps => .emp
  | .chr d => if d.toLower == c.toLower then .eps else .emp
  | .dot => if c == '\n' then .emp else .eps
  | .alt r s => .alt (deriv r c) (deriv s c)
  | .cat r s =>
    if nullable r then .alt (.cat (deriv r c) s) (deriv s c)
    else .cat (deriv r c) s
  | .star r => .cat (deriv r c) (.star r)

/-- Does the regex match the whole string (re.fullmatch)? -/
def rmatch (r : Regex) (s : Str) : Bool := nullable (s.foldl deriv r)

/-- Does the regex match some leading segment of the string? -/
def matchSomeInit (r : Regex) : Str → Bool
  | [] => nullable r
  | c :: cs => nullable r || matchSomeInit (deriv r c) cs

/-- re.search: does the regex match starting at some position of the string? -/
def rsearch (r : Regex) : Str → Bool
  | [] => nullable r
  | c :: cs => matchSomeInit r (c :: cs) || rsearch r cs

/-- One immediate entry of the search directory: its filename and whether it
is a regular file; subdirectories and other non-files have isFile false. -/
structure Entry where
  name : Str
  isFile : Bool
deriving DecidableEq

/-- The sort order on directory entries induced by the natural key. -/
def entryLe (a b : Entry) : Bool := keyLe a.name b.name

/-- The selection test of the directory scan: a regular file whose suffix
lowers to .pdf and whose filename the regex matches somewhere. -/
def keeps (regex : Regex) (e : Entry) : Bool :=
  e.isFile && (lowerStr (pathSuffix e.name) == pdfExt) && rsearch regex e.name

/-- find_matching_pdfs: keep the entries passing the selection test, sorted
by the natural key. -/
def find_matching_pdfs (entries : List Entry) (regex : Regex) : List Entry :=
  (entries.filter (keeps regex)).mergeSort entryLe

/-- A candidate PDF: content is the page list when the file opens and parses,
and none when reading it raises an exception. -/
structure PdfFile (α : Type) where
  name : Str
  content : Option (List α)
deriving DecidableEq

/-- The pages accumulated by the writer: each readable file appends all of its
pages in order, a failing file is skipped and the loop continues. -/
def mergedPages (files : List (PdfFile α)) : List α :=
  files.foldl (fun w f =>
    match f.content with
    | some pages => w ++ pages
    | none => w) []

/-- Observable outcome of one run: the exit status, the page list written to
the output path (none when no write completed), the candidate count printed in
the success message, and whether the no-files message was printed. -/
structure RunResult (α : Type) where
  exitCode : Nat
  written : Option (List α)
  reportedCount : Option Nat
  noFilesMsg : Bool
deriving DecidableEq

/-- merge_pdfs: an empty candidate list only prints the no-files message and
returns; otherwise the accumulated pages are written, a failing write exiting
with status 1.  writeOk records whether opening and writing the output
succeeds. -/
def merge_pdfs (files : List (PdfFile α)) (writeOk : Bool) : RunResult α :=
  if files.isEmpty then ⟨0, none, none, true⟩
  else if writeOk then ⟨0, some (mergedPages files), some files.length, false⟩
  else ⟨1, none, none, false⟩

/-- main after argument parsing: an invalid directory exits with status 1;
a pattern re.compile rejects (modelled as none) makes find_matching_pdfs exit
with status 1; otherwise the matches are read and merged.  readFile gives each
candidate's parse outcome. -/
def main (dirValid : Bool) (pat : Option Regex) (entries : List Entry)
    (readFile : Str → Option (List α)) (writeOk : Bool) : RunResult α :=
  if !dirValid then ⟨1, none, none, false⟩
  else
    match pat with
    | none => ⟨1, none, none, false⟩
    | some regex =>
      let files := (find_matching_pdfs entries regex).map fun e =>
        PdfFile.mk e.name (readFile e.name)
      merge_pdfs files writeOk

/-! ### Order lemmas for the key comparison -/

theorem cmpNat_lt_iff (a b : Nat) : cmpNat a b = .lt ↔ a < b := by
  unfold cmpNat
  split
  · simp
    omega
  · split <;> simp <;> omega

theorem cmpNat_eq_iff (a b : Nat) : cmpNat a b = .eq ↔ a = b := by
  unfold cmpNat
  split
  · simp
    omega
  · split <;> simp <;> omega

theorem cmpNat_gt_iff (a b : Nat) : cmpNat a b = .gt ↔ b < a := by
  unfold cmpNat
  split
  · simp
    omega
  · split <;> simp <;> omega

theorem cmpNat_swap (a b : Nat) : cmpNat b a = (cmpNat a b).swap := by
  rcases Nat.lt_trichotomy a b with h | h | h
  · rw [(cmpNat_lt_iff a b).mpr h, (cmpNat_gt_iff b a).mpr h]
    rfl
  · subst h
    rw [(cmpNat_eq_iff a a).mpr rfl]
    rfl
  · rw [(cmpNat_gt_iff a b).mpr h, (cmpNat_lt_iff b a).mpr h]
    rfl

theorem cmpNat_lt_trans {a b c : Nat} (h₁ : cmpNat a b = .lt)
    (h₂ : cmpNat b c = .lt) : cmpNat a c = .lt := by
  rw [cmpNat_lt_iff] at h₁ h₂ ⊢
  omega

theorem cmpChar_eq_iff (a b : Char) : cmpChar a b = .eq ↔ a = b := by
  rw [cmpChar, cmpNat_eq_iff]
  constructor
  · intro h
    exact Char.eq_of_val_eq (UInt32.toNat.inj h)
  · intro h
    rw [h]

theorem cmpChar_swap (a b : Char) : cmpChar b a = (cmpChar a b).swap :=
  cmpNat_swap a.toNat b.toNat

theorem cmpChar_lt_trans {a b c : Char} (h₁ : cmpChar a b = .lt)
    (h₂ : cmpChar b c = .lt) : cmpChar a c = .lt :=
  cmpNat_lt_trans h₁ h₂

theorem cmpStr_eq_iff : ∀ (a b : Str), cmpStr a b = .eq ↔ a = b
  | [], [] => by simp [cmpStr]
  | [], _ :: _ => by simp [cmpStr]
  | _ :: _, [] => by simp [cmpStr]
  | a :: as, b :: bs => by
    rw [cmpStr]
    rcases h : cmpChar a b with _ | _ | _
    · have hne : a ≠ b := by
        intro hab
        rw [hab, (cmpChar_eq_iff b b).mpr rfl] at h
        exact Ordering.noConfusion h
      simp [hne]
    · rw [cmpChar_eq_iff] at h
      simp [h, cmpStr_eq_iff as bs]
    · have hne : a ≠ b := by
        intro hab
        rw [hab, (cmpChar_eq_iff b b).mpr rfl] at h
        exact Ordering.noConfusion h
      simp [hne]

theorem cmpStr_swap : ∀ (a b : Str), cmpStr b a = (cmpStr a b).swap
  | [], [] => rfl
  | [], _ :: _ => rfl
  | _ :: _, [] => rfl
  | a :: as, b :: bs => by
    rw [cmpStr, cmpStr, cmpChar_swap a b]
    rcases h : cmpChar a b with _ | _ | _ <;>
      simp [Ordering.swap, cmpStr_swap as bs]

theorem cmpStr_lt_trans : ∀ {a b c : Str}, cmpStr a b = .lt → cmpStr b c = .lt →
    cmpStr a c = .lt
  | [], [], _, h₁, _ => by simp [cmpStr] at h₁
  | [], _ :: _, [], _, h₂ => by simp [cmpStr] at h₂
  | [], _ :: _, _ :: _, _, _ => by simp [cmpStr]
  | _ :: _, [], _, h₁, _ => by simp [cmpStr] at h₁
  | _ :: _, _ :: _, [], _, h₂ => by simp [cmpStr] at h₂
  | a :: as, b :: bs, c :: cs, h₁, h₂ => by
    rw [cmpStr] at h₁ h₂ ⊢
    rcases hab : cmpChar a b with _ | _ | _ <;> rw [hab] at h₁ <;>
      rcases hbc : cmpChar b c with _ | _ | _ <;> rw [hbc] at h₂ <;>
      dsimp only at h₁ h₂
    · rw [cmpChar_lt_trans hab hbc]
    · rw [cmpChar_eq_iff] at hbc
      subst hbc
      rw [hab]
    · exact Ordering.noConfusion h₂
    · rw [cmpChar_eq_iff] at hab
      subst hab
      rw [hbc]
    · rw [cmpChar_eq_iff] at hab
      rw [cmpChar_eq_iff] at hbc
      subst hab
      subst hbc
      rw [(cmpChar_eq_iff a a).mpr rfl]
      exact cmpStr_lt_trans h₁ h₂
    · exact Ordering.noConfusion h₂
    · exact Ordering.noConfusion h₁
    · exact Ordering.noConfusion h₁
    · exact Ordering.noConfusion h₁

theorem cmpPart_eq_iff (a b : Part) : cmpPart a b = some .eq ↔ a = b := by
  cases a <;> cases b <;>
    simp [cmpPart, cmpStr_eq_iff, cmpNat_eq_iff]

theorem cmpPart_swap (a b : Part) : cmpPart b a = (cmpPart a b).map .swap := by
  cases a with
  | str s₁ =>
    cases b with
    | str s₂ => simp [cmpPart, cmpStr_swap s₁ s₂]
    | num n₂ => rfl
  | num n₁ =>
    cases b with
    | str s₂ => rfl
    | num n₂ => simp [cmpPart, cmpNat_swap n₁ n₂]

theorem cmpPart_lt_trans {a b c : Part} (h₁ : cmpPart a b = some .lt)
    (h₂ : cmpPart b c = some .lt) : cmpPart a c = some .lt := by
  cases a <;> cases b <;> cases c <;> simp [cmpPart] at h₁ h₂ ⊢
  · exact cmpStr_lt_trans h₁ h₂
  · exact cmpNat_lt_trans h₁ h₂

theorem cmpKey_eq_iff : ∀ (k₁ k₂ : List Part), cmpKey k₁ k₂ = some .eq ↔ k₁ = k₂
  | [], [] => by simp [cmpKey]
  | [], _ :: _ => by simp [cmpKey]
  | _ :: _, [] => by simp [cmpKey]
  | a :: as, b :: bs => by
    rw [cmpKey]
    have hne : cmpPart a b ≠ some .eq → a ≠ b := by
      intro h hab
      rw [hab, (cmpPart_eq_iff b b).mpr rfl] at h
      exact h rfl
    rcases h : cmpPart a b with _ | o
    · simp [hne (by rw [h]; exact fun hh => Option.noConfusion hh)]
    · rcases o with _ | _ | _
      · simp [hne (by rw [h]; intro hh; injection hh with hh; exact Ordering.noConfusion hh)]
      · rw [cmpPart_eq_iff] at h
        simp [h, cmpKey_eq_iff as bs]
      · simp [hne (by rw [h]; intro hh; injection hh with hh; exact Ordering.noConfusion hh)]

theorem cmpKey_swap : ∀ (k₁ k₂ : List Part),
    cmpKey k₂ k₁ = (cmpKey k₁ k₂).map .swap
  | [], [] => rfl
  | [], _ :: _ => rfl
  | _ :: _, [] => rfl
  | a :: as, b :: bs => by
    rw [cmpKey, cmpKey, cmpPart_swap a b]
    rcases h : cmpPart a b with _ | o
    · simp
    · rcases o with _ | _ | _ <;> simp [Ordering.swap, cmpKey_swap as bs]

theorem cmpKey_lt_trans : ∀ {k₁ k₂ k₃ : List Part}, cmpKey k₁ k₂ = some .lt →
    cmpKey k₂ k₃ = some .lt → cmpKey k₁ k₃ = some .lt
  | [], [], _, h₁, _ => by simp [cmpKey] at h₁
  | [], _ :: _, [], _, h₂ => by simp [cmpKey] at h₂
  | [], _ :: _, _ :: _, _, _ => by simp [cmpKey]
  | _ :: _, [], _, h₁, _ => by simp [cmpKey] at h₁
  | _ :: _, _ :: _, [], _, h₂ => by simp [cmpKey] at h₂
  | a :: as, b :: bs, c :: cs, h₁, h₂ => by
    rw [cmpKey] at h₁ h₂ ⊢
    rcases hab : cmpPart a b with _ | (_ | _ | _) <;> rw [hab] at h₁ <;>
      dsimp only at h₁
    · exact absurd h₁ (by decide)
    · rcases hbc : cmpPart b c with _ | (_ | _ | _) <;> rw [hbc] at h₂ <;>
        dsimp only at h₂
      · exact absurd h₂ (by decide)
      · rw [cmpPart_lt_trans hab hbc]
      · rw [cmpPart_eq_iff] at hbc
        subst hbc
        rw [hab]
      · exact absurd h₂ (by decide)
    · rw [cmpPart_eq_iff] at hab
      subst hab
      rcases hbc : cmpPart a c with _ | (_ | _ | _) <;> rw [hbc] at h₂ <;>
        dsimp only at h₂
      · exact absurd h₂ (by decide)
      · exact cmpKey_lt_trans h₁ h₂
      · exact absurd h₂ (by decide)
    · exact absurd h₁ (by decide)

/-! ### Shape of the keys: alternation of text and digit runs -/

/-- The split alternates: runs without digit characters at even positions and
nonempty digit runs at odd positions.  The Bool records whether a text run
comes next. -/
inductive AltRuns : Bool → List Str → Prop
  | nil (b : Bool) : AltRuns b []
  | txt (t : Str) (rest : List Str) :
      t.all (fun c => !c.isDigit) = true → AltRuns false rest →
      AltRuns true (t :: rest)
  | dig (d : Str) (rest : List Str) :
      d ≠ [] → d.all Char.isDigit = true → AltRuns true rest →
      AltRuns false (d :: rest)

theorem altRuns_splitDigits (s : Str) : AltRuns true (splitDigits s) := by
  induction s with
  | nil => exact .txt [] [] rfl (.nil false)
  | cons c cs ih =>
    simp only [splitDigits]
    rcases hsp : splitDigits cs with _ | ⟨t, rest⟩
    · exact .txt [] [] rfl (.nil false)
    · rw [hsp] at ih
      dsimp only
      by_cases hc : c.isDigit = true
      · rw [if_pos hc]
        rcases t with _ | ⟨a, t1⟩
        · rcases rest with _ | ⟨d, rs⟩
          · exact .txt [] _ rfl
              (.dig [c] _ (by simp) (by simp [hc]) (.txt [] [] rfl (.nil false)))
          · cases ih with
            | txt _ _ ht hrest =>
              cases hrest with
              | dig _ _ hd hdall hrs =>
                exact .txt [] _ rfl
                  (.dig (c :: d) rs (by simp) (by simp [hc, hdall]) hrs)
        · cases ih with
          | txt _ _ ht hrest =>
            exact .txt [] _ rfl
              (.dig [c] _ (by simp) (by simp [hc]) (.txt (a :: t1) rest ht hrest))
      · rw [if_neg hc]
        cases ih with
        | txt _ _ ht hrest =>
          have hc0 : c.isDigit = false := Bool.eq_false_iff.mpr hc
          exact .txt (c :: t) rest (by simp [List.all_cons, hc0, ht]) hrest

/-- The alternating shape of a key: text components at even positions and
numeric components at odd positions; the Bool records which kind comes
next. -/
inductive KeyShape : Bool → List Part → Prop
  | nil (b : Bool) : KeyShape b []
  | txt (s : Str) (rest : List Part) :
      KeyShape false rest → KeyShape true (.str s :: rest)
  | num (n : Nat) (rest : List Part) :
      KeyShape true rest → KeyShape false (.num n :: rest)

theorem convert_of_txt {t : Str} (h : t.all (fun c => !c.isDigit) = true) :
    convert t = .str (lowerStr t) := by
  cases t with
  | nil => rfl
  | cons a t1 =>
    rw [List.all_cons, Bool.and_eq_true] at h
    have ha : a.isDigit = false := by
      rcases h with ⟨h1, _⟩
      simpa using h1
    simp [convert, pyIsDigit, List.all_cons, ha]

theorem convert_of_dig {d : Str} (hne : d ≠ []) (h : d.all Char.isDigit = true) :
    convert d = .num (digitsVal d) := by
  cases d with
  | nil => exact absurd rfl hne
  | cons a d1 => simp [convert, pyIsDigit, List.isEmpty, h]

theorem keyShape_map {b : Bool} {l : List Str} (h : AltRuns b l) :
    KeyShape b (l.map convert) := by
  induction h with
  | nil b => exact .nil b
  | txt t rest ht _ ih =>
    rw [List.map_cons, convert_of_txt ht]
    exact .txt _ _ ih
  | dig d rest hne hall _ ih =>
    rw [List.map_cons, convert_of_dig hne hall]
    exact .num _ _ ih

theorem keyShape_key (s : Str) : KeyShape true (natural_sort_key s) :=
  keyShape_map (altRuns_splitDigits s)

theorem cmpKey_isSome {b : Bool} {k₁ k₂ : List Part} (h₁ : KeyShape b k₁)
    (h₂ : KeyShape b k₂) : (cmpKey k₁ k₂).isSome = true := by
  induction h₁ generalizing k₂ with
  | nil b => cases k₂ <;> simp [cmpKey]
  | txt s rest _ ih =>
    cases h₂ with
    | nil => simp [cmpKey]
    | txt s₂ rest₂ hrest₂ =>
      rw [cmpKey]
      dsimp only [cmpPart]
      rcases h : cmpStr s s₂ with _ | _ | _
      · simp
      · simpa using ih hrest₂
      · simp
  | num n rest _ ih =>
    cases h₂ with
    | nil => simp [cmpKey]
    | num n₂ rest₂ hrest₂ =>
      rw [cmpKey]
      dsimp only [cmpPart]
      rcases h : cmpNat n n₂ with _ | _ | _
      · simp
      · simpa using ih hrest₂
      · simp

/-- C8: any two natural sort keys are comparable: every key alternates text
components at even positions with integer components at odd positions, so the
element-wise comparison never faces an int against a str and sorting any list
of filenames by this key never raises. -/
theorem sort_keys_always_comparable (a b : Str) :
    KeyShape true (natural_sort_key a) ∧
      (cmpKey (natural_sort_key a) (natural_sort_key b)).isSome = true :=
  ⟨keyShape_key a, cmpKey_isSome (keyShape_key a) (keyShape_key b)⟩

/-! ### The sort order is total and transitive -/

theorem keyLe_iff (a b : Str) :
    keyLe a b = true ↔
      cmpKey (natural_sort_key a) (natural_sort_key b) ≠ some .gt := by
  rw [keyLe]
  rcases h : cmpKey (natural_sort_key a) (natural_sort_key b) with _ | (_ | _ | _) <;>
    simp

theorem keyLe_total (a b : Str) : (keyLe a b || keyLe b a) = true := by
  have hsw := cmpKey_swap (natural_sort_key a) (natural_sort_key b)
  rcases h : cmpKey (natural_sort_key a) (natural_sort_key b) with _ | (_ | _ | _) <;>
    rw [h] at hsw <;> simp [keyLe, h, hsw, Ordering.swap]

theorem keyLe_trans {a b c : Str} (h₁ : keyLe a b = true) (h₂ : keyLe b c = true) :
    keyLe a c = true := by
  rw [keyLe_iff] at h₁ h₂ ⊢
  have s₁ := cmpKey_isSome (keyShape_key a) (keyShape_key b)
  have s₂ := cmpKey_isSome (keyShape_key b) (keyShape_key c)
  rcases hab : cmpKey (natural_sort_key a) (natural_sort_key b) with _ | (_ | _ | _)
  · rw [hab] at s₁
    exact absurd s₁ (by decide)
  · rcases hbc : cmpKey (natural_sort_key b) (natural_sort_key c) with _ | (_ | _ | _)
    · rw [hbc] at s₂
      exact absurd s₂ (by decide)
    · rw [cmpKey_lt_trans hab hbc]
      simp
    · rw [cmpKey_eq_iff] at hbc
      rw [← hbc, hab]
      simp
    · rw [hbc] at h₂
      exact absurd rfl h₂
  · rw [cmpKey_eq_iff] at hab
    rw [hab]
    exact h₂
  · rw [hab] at h₁
    exact absurd rfl h₁

theorem entryLe_trans : ∀ (a b c : Entry), entryLe a b → entryLe b c → entryLe a c :=
  fun _ _ _ h₁ h₂ => keyLe_trans h₁ h₂

theorem entryLe_total : ∀ (a b : Entry), entryLe a b || entryLe b a :=
  fun a b => keyLe_total a.name b.name

theorem pairwise_find_matching (entries : List Entry) (regex : Regex) :
    (find_matching_pdfs entries regex).Pairwise fun a b => entryLe a b = true := by
  rw [find_matching_pdfs]
  exact List.sorted_mergeSort entryLe_trans entryLe_total _

/-- C1: digit runs compare as integers, not as text, so for every set of
directory entries and every pattern, any occurrence of L10.pdf in the sorted
match list sits at a strictly larger position than any occurrence of
L2.pdf. -/
theorem natKey_sorts_L2_before_L10 (entries : List Entry) (regex : Regex)
    (i j : Nat) (hi : i < (find_matching_pdfs entries regex).length)
    (hj : j < (find_matching_pdfs entries regex).length)
    (h10 : ((find_matching_pdfs entries regex).get ⟨i, hi⟩).name = "L10.pdf".toList)
    (h2 : ((find_matching_pdfs entries regex).get ⟨j, hj⟩).name = "L2.pdf".toList) :
    j < i := by
  rcases Nat.lt_trichotomy i j with h | h | h
  · exfalso
    have hp := List.pairwise_iff_get.mp (pairwise_find_matching entries regex)
      ⟨i, hi⟩ ⟨j, hj⟩ h
    have hk : keyLe "L10.pdf".toList "L2.pdf".toList = true := by
      rw [← h10, ← h2]
      exact hp
    exact absurd hk (by decide)
  · exfalso
    subst h
    exact absurd (h10.symm.trans h2) (by decide)
  · exact h

/-- Witness for C1: a directory holding exactly L2.pdf and L10.pdf sorts
L2.pdf to position 0 and L10.pdf to position 1. -/
theorem natKey_sorts_L2_before_L10_witness :
    ∃ (hi : 1 < (find_matching_pdfs
        [Entry.mk "L2.pdf".toList true, Entry.mk "L10.pdf".toList true]
        (.star .dot)).length)
      (hj : 0 < (find_matching_pdfs
        [Entry.mk "L2.pdf".toList true, Entry.mk "L10.pdf".toList true]
        (.star .dot)).length),
      ((find_matching_pdfs
          [Entry.mk "L2.pdf".toList true, Entry.mk "L10.pdf".toList true]
          (.star .dot)).get ⟨1, hi⟩).name = "L10.pdf".toList ∧
      ((find_matching_pdfs
          [Entry.mk "L2.pdf".toList true, Entry.mk "L10.pdf".toList true]
          (.star .dot)).get ⟨0, hj⟩).name = "L2.pdf".toList ∧
      0 < 1 := by
  have hfil : List.filter (keeps (.star .dot))
      [Entry.mk "L2.pdf".toList true, Entry.mk "L10.pdf".toList true]
        = [Entry.mk "L2.pdf".toList true, Entry.mk "L10.pdf".toList true] := by
    decide
  have hfm : find_matching_pdfs
      [Entry.mk "L2.pdf".toList true, Entry.mk "L10.pdf".toList true] (.star .dot)
        = [Entry.mk "L2.pdf".toList true, Entry.mk "L10.pdf".toList true] := by
    rw [find_matching_pdfs, hfil]
    exact List.mergeSort_of_sorted (by decide)
  have hi : 1 < (find_matching_pdfs
      [Entry.mk "L2.pdf".toList true, Entry.mk "L10.pdf".toList true]
      (.star .dot)).length := by
    rw [hfm]
    decide
  have hj : 0 < (find_matching_pdfs
      [Entry.mk "L2.pdf".toList true, Entry.mk "L10.pdf".toList true]
      (.star .dot)).length := by
    rw [hfm]
    decide
  refine ⟨hi, hj, ?h10, ?h2,
    natKey_sorts_L2_before_L10 _ _ 1 0 hi hj ?h10 ?h2⟩
  case h10 =>
    rw [List.get_of_eq hfm]
    rfl
  case h2 =>
    rw [List.get_of_eq hfm]
    rfl

/-- C10: the natural key is not injective: a leading zero in a digit run and
a letter-case variant both leave the key unchanged, and the sort is stable,
so key-tied entries stay in the order the directory listing produced them. -/
theorem natKey_not_injective_sort_stable :
    (natural_sort_key "L02.pdf".toList = natural_sort_key "L2.pdf".toList ∧
      "L02.pdf".toList ≠ "L2.pdf".toList) ∧
    (natural_sort_key "Notes.PDF".toList = natural_sort_key "notes.pdf".toList ∧
      "Notes.PDF".toList ≠ "notes.pdf".toList) ∧
    ∀ (entries : List Entry) (regex : Regex) (a b : Entry),
      natural_sort_key a.name = natural_sort_key b.name →
      List.Sublist [a, b] (entries.filter (keeps regex)) →
      List.Sublist [a, b] (find_matching_pdfs entries regex) := by
  refine ⟨⟨by decide, by decide⟩, ⟨by decide, by decide⟩, ?_⟩
  intro entries regex a b hkey hsub
  rw [find_matching_pdfs]
  have hab : entryLe a b = true := by
    show keyLe a.name b.name = true
    rw [keyLe_iff, hkey, (cmpKey_eq_iff _ _).mpr rfl]
    simp
  exact List.pair_sublist_mergeSort entryLe_trans entryLe_total hab hsub

/-- Witness for C10: L02.pdf listed before its key-twin L2.pdf stays before
it in the sorted matches. -/
theorem natKey_not_injective_sort_stable_witness :
    natural_sort_key (Entry.mk "L02.pdf".toList true).name
        = natural_sort_key (Entry.mk "L2.pdf".toList true).name ∧
      List.Sublist [Entry.mk "L02.pdf".toList true, Entry.mk "L2.pdf".toList true]
        (List.filter (keeps (.star .dot))
          [Entry.mk "L02.pdf".toList true, Entry.mk "L2.pdf".toList true]) ∧
      List.Sublist [Entry.mk "L02.pdf".toList true, Entry.mk "L2.pdf".toList true]
        (find_matching_pdfs
          [Entry.mk "L02.pdf".toList true, Entry.mk "L2.pdf".toList true]
          (.star .dot)) := by
  have hfil : List.filter (keeps (.star .dot))
      [Entry.mk "L02.pdf".toList true, Entry.mk "L2.pdf".toList true]
        = [Entry.mk "L02.pdf".toList true, Entry.mk "L2.pdf".toList true] := by
    decide
  refine ⟨by decide, ?_, ?_⟩
  · rw [hfil]
  · exact natKey_not_injective_sort_stable.2.2 _ (.star .dot) _ _ (by decide)
      (by rw [hfil])

/-! ### Characterization of re.search as substring search -/

theorem rmatch_cons (r : Regex) (c : Char) (cs : Str) :
    rmatch r (c :: cs) = rmatch (deriv r c) cs := rfl

theorem matchSomeInit_iff (r : Regex) (s : Str) :
    matchSomeInit r s = true ↔ ∃ u v, s = u ++ v ∧ rmatch r u = true := by
  induction s generalizing r with
  | nil =>
    constructor
    · intro h
      exact ⟨[], [], rfl, h⟩
    · rintro ⟨u, v, huv, hm⟩
      obtain ⟨hu, hv⟩ := List.append_eq_nil.mp huv.symm
      subst hu
      exact hm
  | cons c cs ih =>
    constructor
    · intro h
      rcases Bool.or_eq_true_iff.mp h with h | h
      · exact ⟨[], c :: cs, rfl, h⟩
      · obtain ⟨u, v, huv, hm⟩ := (ih (deriv r c)).mp h
        exact ⟨c :: u, v, by rw [huv, List.cons_append], hm⟩
    · rintro ⟨u, v, huv, hm⟩
      cases u with
      | nil =>
        simp only [List.nil_append] at huv
        exact Bool.or_eq_true_iff.mpr (Or.inl hm)
      | cons a u =>
        rw [List.cons_append, List.cons.injEq] at huv
        obtain ⟨rfl, hcs⟩ := huv
        exact Bool.or_eq_true_iff.mpr
          (Or.inr ((ih (deriv r c)).mpr ⟨u, v, hcs, hm⟩))

theorem rsearch_iff (r : Regex) (s : Str) :
    rsearch r s = true ↔ ∃ t u v, s = t ++ (u ++ v) ∧ rmatch r u = true := by
  induction s with
  | nil =>
    constructor
    · intro h
      exact ⟨[], [], [], rfl, h⟩
    · rintro ⟨t, u, v, huv, hm⟩
      obtain ⟨ht, hrest⟩ := List.append_eq_nil.mp huv.symm
      obtain ⟨hu, hv⟩ := List.append_eq_nil.mp hrest
      subst hu
      exact hm
  | cons c cs ih =>
    constructor
    · intro h
      rcases Bool.or_eq_true_iff.mp h with h | h
      · obtain ⟨u, v, huv, hm⟩ := (matchSomeInit_iff r (c :: cs)).mp h
        exact ⟨[], u, v, by rw [huv, List.nil_append], hm⟩
      · obtain ⟨t, u, v, huv, hm⟩ := ih.mp h
        exact ⟨c :: t, u, v, by rw [huv, List.cons_append], hm⟩
    · rintro ⟨t, u, v, huv, hm⟩
      cases t with
      | nil =>
        simp only [List.nil_append] at huv
        exact Bool.or_eq_true_iff.mpr
          (Or.inl ((matchSomeInit_iff r (c :: cs)).mpr ⟨u, v, huv, hm⟩))
      | cons a t =>
        rw [List.cons_append, List.cons.injEq] at huv
        obtain ⟨rfl, hcs⟩ := huv
        exact Bool.or_eq_true_iff.mpr (Or.inr (ih.mpr ⟨t, u, v, hcs, hm⟩))

/-- C3: an entry is selected exactly when it is an immediate regular file with
a case-insensitive .pdf extension whose name contains a substring the regex
matches; nothing inside subdirectories is ever selected. -/
theorem find_matching_pdfs_selects_iff (entries : List Entry) (regex : Regex)
    (e : Entry) :
    e ∈ find_matching_pdfs entries regex ↔
      e ∈ entries ∧ e.isFile = true ∧ lowerStr (pathSuffix e.name) = pdfExt ∧
        ∃ t u v, e.name = t ++ (u ++ v) ∧ rmatch regex u = true := by
  rw [find_matching_pdfs, List.mem_mergeSort, List.mem_filter]
  simp [keeps, rsearch_iff, and_assoc]

/-! ### Helper lemmas about the merge loop -/

theorem mergedPages_go {α} (files : List (PdfFile α)) (acc : List α) :
    files.foldl (fun w f =>
      match f.content with
      | some pages => w ++ pages
      | none => w) acc = acc ++ (files.filterMap PdfFile.content).flatten := by
  induction files generalizing acc with
  | nil => simp
  | cons f fs ih =>
    cases h : f.content with
    | none => simp [List.foldl_cons, h, ih]
    | some ps => simp [List.foldl_cons, h, ih]

theorem mergedPages_eq {α} (files : List (PdfFile α)) :
    mergedPages files = (files.filterMap PdfFile.content).flatten := by
  simpa [mergedPages] using mergedPages_go files []

theorem filterMap_content_of_all_some {α} (files : List (PdfFile α))
    (pages : List (List α)) (h : files.map PdfFile.content = pages.map some) :
    files.filterMap PdfFile.content = pages := by
  induction files generalizing pages with
  | nil => cases pages with
    | nil => rfl
    | cons p ps => simp at h
  | cons f fs ih =>
    cases pages with
    | nil => simp at h
    | cons p ps =>
      simp only [List.map_cons, List.cons.injEq] at h
      simp [List.filterMap_cons, h.1, ih ps h.2]

theorem filterMap_content_filter_isSome {α} (files : List (PdfFile α)) :
    (files.filter fun g => g.content.isSome).filterMap PdfFile.content
      = files.filterMap PdfFile.content := by
  induction files with
  | nil => rfl
  | cons f fs ih => cases h : f.content <;> simp [List.filter_cons, h, ih]

/-! ### Claim theorems about merging and the pipeline outcome -/

/-- C2: when every candidate file is readable, the merged output is exactly
the concatenation of the files' page lists in candidate order, each file's
internal page order preserved. -/
theorem merge_concats_readable_pages {α} (files : List (PdfFile α))
    (pages : List (List α)) (h : files.map PdfFile.content = pages.map some) :
    mergedPages files = pages.flatten := by
  rw [mergedPages_eq, filterMap_content_of_all_some files pages h]

/-- Witness for C2: candidates A.pdf with 2 pages then B.pdf with 3 pages
merge into exactly the 5 pages in order. -/
theorem merge_concats_readable_pages_witness :
    ([⟨"A.pdf".toList, some [1, 2]⟩, ⟨"B.pdf".toList, some [3, 4, 5]⟩] :
        List (PdfFile Nat)).map PdfFile.content = [[1, 2], [3, 4, 5]].map some ∧
      mergedPages ([⟨"A.pdf".toList, some [1, 2]⟩, ⟨"B.pdf".toList, some [3, 4, 5]⟩] :
        List (PdfFile Nat)) = [1, 2, 3, 4, 5] :=
  ⟨by decide,
    (merge_concats_readable_pages _ [[1, 2], [3, 4, 5]] (by decide)).trans (by decide)⟩

/-- C5: a candidate that fails to read is skipped and the loop continues:
the merged output is the concatenation of the readable files' pages only, and
removing the unreadable files does not change it. -/
theorem merge_skips_unreadable {α} (files : List (PdfFile α)) (f : PdfFile α)
    (hf : f ∈ files) (hbad : f.content = none) :
    mergedPages files = (files.filterMap PdfFile.content).flatten ∧
      mergedPages (files.filter fun g => g.content.isSome) = mergedPages files := by
  refine ⟨mergedPages_eq files, ?_⟩
  rw [mergedPages_eq, mergedPages_eq, filterMap_content_filter_isSome]

/-- Witness for C5: a corrupt file between two readable ones contributes no
pages and the valid pages all survive. -/
theorem merge_skips_unreadable_witness :
    (⟨"bad.pdf".toList, none⟩ : PdfFile Nat) ∈
        ([⟨"A.pdf".toList, some [1, 2]⟩, ⟨"bad.pdf".toList, none⟩,
          ⟨"B.pdf".toList, some [3]⟩] : List (PdfFile Nat)) ∧
      (⟨"bad.pdf".toList, none⟩ : PdfFile Nat).content = none ∧
      mergedPages ([⟨"A.pdf".toList, some [1, 2]⟩, ⟨"bad.pdf".toList, none⟩,
          ⟨"B.pdf".toList, some [3]⟩] : List (PdfFile Nat)) = [1, 2, 3] :=
  ⟨by decide, by decide,
    ((merge_skips_unreadable _ ⟨"bad.pdf".toList, none⟩ (by decide) (by decide)).1).trans
      (by decide)⟩

/-- C9: a non-empty candidate list in which every file fails to read still
writes an output, an empty page list, exits with status 0, and the success
message reports the candidate count even though fewer files were merged. -/
theorem all_unreadable_still_writes {α} (files : List (PdfFile α))
    (hne : files ≠ []) (hall : ∀ f ∈ files, f.content = none) :
    merge_pdfs files true = ⟨0, some [], some files.length, false⟩ ∧
      (files.filterMap PdfFile.content).length < files.length := by
  have hfm : files.filterMap PdfFile.content = [] := by
    simp only [List.filterMap_eq_nil_iff]
    exact hall
  have hmp : mergedPages files = [] := by
    rw [mergedPages_eq, hfm]; rfl
  have hne' : files.isEmpty = false := by
    cases files with
    | nil => exact absurd rfl hne
    | cons f fs => rfl
  refine ⟨?_, ?_⟩
  · simp [merge_pdfs, hne', hmp]
  · rw [hfm]
    cases files with
    | nil => exact absurd rfl hne
    | cons f fs => simp

/-- Witness for C9: one unreadable candidate still yields a zero-page output,
exit status 0, and a reported count of 1. -/
theorem all_unreadable_still_writes_witness :
    ([⟨"bad.pdf".toList, none⟩] : List (PdfFile Nat)) ≠ [] ∧
      (∀ f ∈ ([⟨"bad.pdf".toList, none⟩] : List (PdfFile Nat)), f.content = none) ∧
      merge_pdfs ([⟨"bad.pdf".toList, none⟩] : List (PdfFile Nat)) true
        = ⟨0, some [], some 1, false⟩ :=
  ⟨by decide, by decide,
    (all_unreadable_still_writes _ (by decide) (by decide)).1⟩

/-- C6: the run exits with a nonzero status exactly when the directory is
invalid, the pattern does not compile, or the final write of a non-empty
match set fails; in every other case, the empty match set included, the exit
status is 0. -/
theorem exit_nonzero_iff {α} (dirValid : Bool) (pat : Option Regex)
    (entries : List Entry) (readFile : Str → Option (List α)) (writeOk : Bool) :
    (main dirValid pat entries readFile writeOk).exitCode ≠ 0 ↔
      dirValid = false ∨ pat = none ∨
        ∃ regex, pat = some regex ∧
          find_matching_pdfs entries regex ≠ [] ∧ writeOk = false := by
  cases dirValid with
  | false => simp [main]
  | true =>
    cases pat with
    | none => simp [main]
    | some r =>
      by_cases h : find_matching_pdfs entries r = []
      · simp [main, h, merge_pdfs]
      · have hne : ((find_matching_pdfs entries r).map fun e =>
            PdfFile.mk e.name (readFile e.name)).isEmpty = false := by
          simp [List.isEmpty_iff, h]
        cases writeOk with
        | true => simp [main, merge_pdfs, hne, h]
        | false => simp [main, merge_pdfs, hne, h]

/-- C7: an empty match set prints the no-files message, writes nothing, and
the run exits with status 0. -/
theorem empty_matches_clean_exit {α} (regex : Regex) (entries : List Entry)
    (readFile : Str → Option (List α)) (writeOk : Bool)
    (h : find_matching_pdfs entries regex = []) :
    main true (some regex) entries readFile writeOk
      = ⟨0, none, none, true⟩ := by
  simp [main, h, merge_pdfs]

/-- Witness for C7: an empty directory matches nothing and exits cleanly. -/
theorem empty_matches_clean_exit_witness :
    find_matching_pdfs [] (.star .dot) = [] ∧
      main (α := Nat) true (some (.star .dot)) [] (fun _ => none) false
        = ⟨0, none, none, true⟩ :=
  ⟨by simp [find_matching_pdfs],
    empty_matches_clean_exit _ _ _ _ (by simp [find_matching_pdfs])⟩

/-! ### Output path normalization -/

theorem rfindIdx_append_right (xs : Str) {c : Char} {ys : Str} {i : Nat}
    (h : rfindIdx c ys = some i) :
    rfindIdx c (xs ++ ys) = some (xs.length + i) := by
  induction xs with
  | nil => simpa using h
  | cons a xs ih =>
    rw [List.cons_append, rfindIdx, ih]
    dsimp only
    rw [List.length_cons]
    congr 1
    omega

theorem pathSuffix_append_pdf (base : Str) (hb : base ≠ []) :
    pathSuffix (base ++ pdfExt) = pdfExt := by
  have h0 : rfindIdx '.' pdfExt = some 0 := rfl
  have hfind := rfindIdx_append_right base h0
  rw [Nat.add_zero] at hfind
  have hcond : 0 < base.length ∧ base.length < (base ++ pdfExt).length - 1 := by
    constructor
    · exact List.length_pos.mpr hb
    · rw [List.length_append]
      have h4 : pdfExt.length = 4 := rfl
      omega
  rw [pathSuffix, hfind]
  dsimp only
  rw [if_pos hcond]
  exact List.drop_left base pdfExt

theorem pathSuffix_spec {name : Str} (h : pathSuffix name ≠ []) :
    ∃ i, rfindIdx '.' name = some i ∧ 0 < i ∧ i < name.length - 1 ∧
      pathSuffix name = name.drop i := by
  rcases hf : rfindIdx '.' name with _ | i
  · rw [pathSuffix, hf] at h
    exact absurd rfl h
  · by_cases hc : 0 < i ∧ i < name.length - 1
    · refine ⟨i, rfl, hc.1, hc.2, ?_⟩
      rw [pathSuffix, hf]
      dsimp only
      rw [if_pos hc]
    · rw [pathSuffix, hf] at h
      dsimp only at h
      rw [if_neg hc] at h
      exact absurd rfl h

theorem withSuffixName_eq (name : Str) (hname : name ≠ []) :
    ∃ base, base ≠ [] ∧ withSuffixName name pdfExt = base ++ pdfExt := by
  by_cases h : pathSuffix name = []
  · refine ⟨name, hname, ?_⟩
    simp only [withSuffixName]
    rw [if_pos (by simp [h])]
  · obtain ⟨i, hf, hi0, hilt, hdrop⟩ := pathSuffix_spec h
    refine ⟨name.take i, ?_, ?_⟩
    · rw [Ne, List.take_eq_nil_iff]
      rintro (h0 | h0)
      · omega
      · exact hname h0
    · simp only [withSuffixName]
      rw [if_neg (by simp [List.isEmpty_iff, h]), hdrop, List.length_drop]
      have hlen : name.length - (name.length - i) = i := by omega
      rw [hlen]

theorem pathSuffix_withSuffixName (name : Str) (hname : name ≠ []) :
    pathSuffix (withSuffixName name pdfExt) = pdfExt := by
  obtain ⟨base, hb, heq⟩ := withSuffixName_eq name hname
  rw [heq]
  exact pathSuffix_append_pdf base hb

theorem PyPath.name_withSuffix (p : PyPath) (ext : Str) :
    (p.withSuffix ext).name = withSuffixName p.name ext :=
  List.getLastD_concat _ _ _

/-- C4: the resolved output path always carries a .pdf suffix, and a relative
output path lands inside the search directory. -/
theorem resolveOutput_normalizes (directory output_path : PyPath)
    (hname : output_path.name ≠ []) :
    lowerStr (pathSuffix (resolveOutput directory output_path).name) = pdfExt ∧
      (output_path.isAbs = false →
        (resolveOutput directory output_path).isAbs = directory.isAbs ∧
        ∃ rest, (resolveOutput directory output_path).parts
          = directory.parts ++ rest) := by
  have hparts : output_path.parts ≠ [] := by
    intro hp
    apply hname
    rw [PyPath.name, hp]
    rfl
  simp only [resolveOutput]
  by_cases hcond : lowerStr (pathSuffix output_path.name) ≠ pdfExt
  · rw [if_pos hcond]
    have hql : lowerStr (pathSuffix (output_path.withSuffix pdfExt).name) = pdfExt := by
      rw [PyPath.name_withSuffix, pathSuffix_withSuffixName output_path.name hname]
      decide
    cases habs : output_path.isAbs with
    | true =>
      have : (output_path.withSuffix pdfExt).isAbs = true := habs
      rw [this]
      simp only [Bool.not_true, Bool.false_eq_true, if_false]
      refine ⟨hql, ?_⟩
      intro hfalse
      exact absurd hfalse (by decide)
    | false =>
      have : (output_path.withSuffix pdfExt).isAbs = false := habs
      rw [this]
      simp only [Bool.not_false, if_true]
      rw [joinPath, this, if_neg (by decide)]
      constructor
      · rw [PyPath.name]
        dsimp only
        rw [PyPath.withSuffix]
        dsimp only
        rw [← List.append_assoc, List.getLastD_concat]
        rw [PyPath.name_withSuffix] at hql
        exact hql
      · intro _
        exact ⟨rfl, ⟨_, rfl⟩⟩
  · rw [if_neg hcond]
    rw [not_not] at hcond
    cases habs : output_path.isAbs with
    | true =>
      rw [if_neg (by decide)]
      refine ⟨hcond, ?_⟩
      intro hfalse
      exact absurd hfalse (by decide)
    | false =>
      rw [if_pos (by decide)]
      rw [joinPath, habs, if_neg (by decide)]
      constructor
      · rw [PyPath.name]
        dsimp only
        conv in output_path.parts => rw [← List.dropLast_append_getLast hparts]
        rw [← List.append_assoc, List.getLastD_concat]
        have hnm : output_path.parts.getLast hparts = output_path.name := by
          rw [PyPath.name]
          rw [List.getLastD_eq_getLast?]
          rw [List.getLast?_eq_getLast _ hparts]
          rfl
        rw [hnm]
        exact hcond
      · intro _
        exact ⟨rfl, ⟨_, rfl⟩⟩

/-- Witness for C4: the relative output report.txt resolves to
docs/report.pdf inside the absolute search directory docs. -/
theorem resolveOutput_normalizes_witness :
    (PyPath.mk false ["report.txt".toList]).name ≠ [] ∧
      lowerStr (pathSuffix (resolveOutput (PyPath.mk true ["docs".toList])
        (PyPath.mk false ["report.txt".toList])).name) = pdfExt ∧
      ((PyPath.mk false ["report.txt".toList]).isAbs = false →
        (resolveOutput (PyPath.mk true ["docs".toList])
          (PyPath.mk false ["report.txt".toList])).isAbs
            = (PyPath.mk true ["docs".toList]).isAbs ∧
        ∃ rest, (resolveOutput (PyPath.mk true ["docs".toList])
          (PyPath.mk false ["report.txt".toList])).parts
            = (PyPath.mk true ["docs".toList]).parts ++ rest) := by
  have h := resolveOutput_normalizes (PyPath.mk true ["docs".toList])
    (PyPath.mk false ["report.txt".toList]) (by decide)
  exact ⟨by decide, h.1, h.2⟩

end PdfMerger
